import Mathlib

/-!
# baa: the request context (`context.go`)

A shallow embedding of `Context` and of the standard-library routines it
calls, followed by the properties established about it.

Conventions of the embedding:

* a Go `string` (and `[]byte`) is a list of bytes;
* a Go `int` is an `Int`; conversions that can wrap are explicit;
* a method that can panic returns `Except Fault _`;
* methods of `*Context` take the context as an argument and return the
  updated context; the application `*Baa` that `c.baa` points to is passed
  as an argument, so that changes made to it by other code are visible.
-/

namespace Baa

/-! ## Strings -/

/-- One byte. -/
abbrev Byte := Fin 256

/-- A Go string: a sequence of bytes. -/
abbrev GoString := List Byte

/-- The byte of an ASCII character literal. -/
def ch (c : Char) : Byte := Fin.ofNat c.toNat

/-- The bytes of an ASCII string literal. -/
def lit (s : String) : GoString := s.toList.map ch

/-- Ways in which an execution stops without a result: a Go run-time panic,
or the step budget of the model running out. -/
inductive Fault where
  | panic
  | fuel
  deriving DecidableEq, Repr

/-! ## strconv -/

/-- The size in bits of `int` (`strconv.IntSize`) on 64-bit targets. -/
def IntSize : Nat := 64

/-- Conversion of an integer to the signed type of `w` bits: wraps modulo `2^w`. -/
def wrapSigned (w : Nat) (v : Int) : Int :=
  (v + 2 ^ (w - 1)) % 2 ^ w - 2 ^ (w - 1)

/-- Go conversion `int(v)`. -/
def toInt (v : Int) : Int := wrapSigned IntSize v

/-- Go `url.shouldEscape(c, encodeQueryComponent)`. -/
def shouldEscape (c : Byte) : Bool :=
  if (ch 'a' ≤ c ∧ c ≤ ch 'z') ∨ (ch 'A' ≤ c ∧ c ≤ ch 'Z') ∨ (ch '0' ≤ c ∧ c ≤ ch '9') then
    false
  else if c = ch '-' ∨ c = ch '_' ∨ c = ch '.' ∨ c = ch '~' then false
  else true

/-- The table `upperhex = "0123456789ABCDEF"` indexed by a nibble. -/
def upperhex (n : Nat) : Byte :=
  if n < 10 then Fin.ofNat (48 + n) else Fin.ofNat (55 + n)

/-- What `url.escape` emits for one byte in mode `encodeQueryComponent`. -/
def escapeByte (c : Byte) : GoString :=
  if c = ch ' ' then [ch '+']
  else if shouldEscape c then [ch '%', upperhex (c.val >>> 4), upperhex (c.val &&& 15)]
  else [c]

/-- Go `url.QueryEscape(s)`. -/
def QueryEscape (s : GoString) : GoString :=
  s.flatMap escapeByte

/-- Go `url.ishex`. -/
def ishex (c : Byte) : Bool :=
  (ch '0' ≤ c ∧ c ≤ ch '9') ∨ (ch 'a' ≤ c ∧ c ≤ ch 'f') ∨ (ch 'A' ≤ c ∧ c ≤ ch 'F')

/-- Go `url.unhex`. -/
def unhex (c : Byte) : Nat :=
  if ch '0' ≤ c ∧ c ≤ ch '9' then c.val - 48
  else if ch 'a' ≤ c ∧ c ≤ ch 'f' then c.val - 97 + 10
  else if ch 'A' ≤ c ∧ c ≤ ch 'F' then c.val - 65 + 10
  else 0

/-- First pass of `url.unescape`: every `%` is followed by two hex digits. -/
def unescapeValid : GoString → Bool
  | [] => true
  | c :: rest =>
    if c = ch '%' then
      match rest with
      | a :: b :: rest2 => ishex a && ishex b && unescapeValid rest2
      | _ => false
    else unescapeValid rest

/-- Second pass of `url.unescape` in mode `encodeQueryComponent`. -/
def unescapeDecode : GoString → GoString
  | [] => []
  | c :: rest =>
    if c = ch '%' then
      match rest with
      | a :: b :: rest2 =>
        Fin.ofNat ((unhex a <<< 4) % 256 ||| unhex b) :: unescapeDecode rest2
      | _ => []
    else if c = ch '+' then ch ' ' :: unescapeDecode rest
    else c :: unescapeDecode rest

/-- Go `url.QueryUnescape(s)`: the decoded string, or `""` and an error. -/
def QueryUnescape (s : GoString) : GoString × Bool :=
  if unescapeValid s then (unescapeDecode s, false) else ([], true)

/-! ## net/http: cookies -/

/-- Go `http.Cookie`, with the fields `SetCookie` fills in. -/
structure Cookie where
  Name : GoString := []
  Value : GoString := []
  Path : GoString := []
  Domain : GoString := []
  MaxAge : Int := 0
  Secure : Bool := false
  HttpOnly : Bool := false
  deriving DecidableEq, Repr

/-- Go `http.validCookieValueByte`: `0x20 <= b < 0x7f`, not `"`, `;` or `\`. -/
def validCookieValueByte (b : Byte) : Bool :=
  32 ≤ b.val ∧ b.val < 127 ∧ b.val ≠ 34 ∧ b ≠ ch ';' ∧ b.val ≠ 92

/-- Go `http.validCookiePathByte`. -/
def validCookiePathByte (b : Byte) : Bool :=
  32 ≤ b.val ∧ b.val < 127 ∧ b ≠ ch ';'

/-- Go `http.sanitizeOrWarn`: the bytes of `v` that are valid. -/
def sanitizeOrWarn (valid : Byte → Bool) (v : GoString) : GoString :=
  v.filter valid

/-- Go `http.sanitizeCookieValue`: invalid bytes are dropped and a value with
a space or a comma is put in double quotes. -/
def sanitizeCookieValue (v : GoString) : GoString :=
  let v := sanitizeOrWarn validCookieValueByte v
  if ch ' ' ∈ v ∨ ch ',' ∈ v then [(34 : Byte)] ++ v ++ [(34 : Byte)] else v

/-- Go `httpguts.IsTokenRune` on a byte. -/
def isToken (b : Byte) : Bool :=
  (ch 'a' ≤ b ∧ b ≤ ch 'z') ∨ (ch 'A' ≤ b ∧ b ≤ ch 'Z') ∨ (ch '0' ≤ b ∧ b ≤ ch '9') ∨
  b.val ∈ [33, 35, 36, 37, 38, 39, 42, 43, 45, 46, 94, 95, 96, 124, 126]

/-- Go `http.isCookieNameValid`. -/
def isCookieNameValid (raw : GoString) : Bool :=
  raw ≠ [] ∧ raw.all isToken

/-- Go `(*http.Cookie).String`, for a cookie without `Expires` and
`SameSite`; `validCookieDomain` is the library's domain check. -/
def Cookie.String (validCookieDomain : GoString → Bool) (c : Cookie) : GoString :=
  if ¬ isCookieNameValid c.Name then []
  else
    let b := c.Name ++ [ch '='] ++ sanitizeCookieValue c.Value
    let b := if c.Path.length > 0 then
        b ++ lit "; Path=" ++ sanitizeOrWarn validCookiePathByte c.Path else b
    let b := if c.Domain.length > 0 ∧ validCookieDomain c.Domain then
        b ++ lit "; Domain=" ++ (if c.Domain.head? = some (ch '.') then c.Domain.tail else c.Domain)
      else b
    let b := if c.MaxAge > 0 then b ++ lit "; Max-Age=" ++ (Nat.toDigits 10 c.MaxAge.toNat).map ch
      else if c.MaxAge < 0 then b ++ lit "; Max-Age=0" else b
    let b := if c.HttpOnly then b ++ lit "; HttpOnly" else b
    if c.Secure then b ++ lit "; Secure" else b

/-- Go `textproto.TrimString`: leading and trailing ASCII space removed. -/
def isASCIISpace (b : Byte) : Bool :=
  b = ch ' ' ∨ b.val = 9 ∨ b.val = 10 ∨ b.val = 13

/-- Go `textproto.TrimString`. -/
def trimString (s : GoString) : GoString :=
  ((s.dropWhile isASCIISpace).reverse.dropWhile isASCIISpace).reverse

/-- Go `strings.Cut(s, sep)` for a one-byte separator: the text before the
first `sep` and the text after it. -/
def cut (sep : Byte) (s : GoString) : GoString × GoString :=
  (s.takeWhile (· ≠ sep), (s.dropWhile (· ≠ sep)).drop 1)

/-- The pieces of `s` between occurrences of `sep`. -/
def splitByte (sep : Byte) : GoString → List GoString
  | [] => [[]]
  | c :: rest =>
    if c = sep then [] :: splitByte sep rest
    else match splitByte sep rest with
      | [] => [[c]]
      | p :: ps => (c :: p) :: ps

/-- Go `http.parseCookieValue(raw, true)`. -/
def parseCookieValue (raw : GoString) : Option GoString :=
  let raw := if raw.length > 1 ∧ raw.head? = some 34 ∧ raw.getLast? = some 34 then
      (raw.drop 1).dropLast else raw
  if raw.all validCookieValueByte then some raw else none

/-- The body of the loop of `http.readCookies` for one `;`-separated part. -/
def readCookiePart (filter part : GoString) : Option Cookie :=
  let part := trimString part
  if part = [] then none
  else
    let nv := cut (ch '=') part
    let name := trimString nv.1
    if ¬ isCookieNameValid name then none
    else if filter ≠ [] ∧ filter ≠ name then none
    else match parseCookieValue nv.2 with
      | none => none
      | some val => some { Name := name, Value := val }

/-- Go `http.readCookies(h, filter)` on the lines of the `Cookie` header
(empty parts are skipped, so cutting at each `;` in turn and splitting at
every `;` visit the same parts). -/
def readCookies (lines : List GoString) (filter : GoString) : List Cookie :=
  lines.flatMap fun line =>
    (splitByte (ch ';') (trimString line)).filterMap (readCookiePart filter)

/-! ## Data model -/

/-- A Go `interface{}` value, as far as `Context` looks at it. -/
inductive Any where
  | nil
  | int (v : Int)
  | int8 (v : Int)
  | int16 (v : Int)
  | int32 (v : Int)
  | int64 (v : Int)
  | uint (v : Int)
  | uint8 (v : Int)
  | uint16 (v : Int)
  | uint32 (v : Int)
  | uint64 (v : Int)
  | string (s : GoString)
  | bool (b : Bool)
  deriving DecidableEq, Repr

/-- Go `http.Header`: a map from (canonical) keys to lists of values. -/
abbrev Header := List (GoString × List GoString)

/-- Go `Header.Get` on the whole entry: the values of `key`. -/
def Header.Values (h : Header) (key : GoString) : List GoString :=
  match h.find? (·.1 = key) with
  | some e => e.2
  | none => []

/-- Go `Header.Set`, for a key in canonical form. -/
def Header.Set (h : Header) (key value : GoString) : Header :=
  (key, [value]) :: h.filter (·.1 ≠ key)

/-- Go `Header.Add`, for a key in canonical form. -/
def Header.Add (h : Header) (key value : GoString) : Header :=
  (key, Header.Values h key ++ [value]) :: h.filter (·.1 ≠ key)

/-- Go `http.Request`, with the fields `Context` reads here. -/
structure Request where
  Method : GoString := []
  Header : Header := []
  deriving DecidableEq, Repr

/-- Go `(*http.Request).Cookie(name)`; `none` is `ErrNoCookie`. -/
def Request.Cookie (r : Request) (name : GoString) : Option Cookie :=
  if name = [] then none
  else (readCookies (Header.Values r.Header (lit "Cookie")) name).head?

/-- A call received by the response wrapper. -/
inductive RespCall where
  | HeaderSet (key value : GoString)
  | HeaderAdd (key value : GoString)
  | WriteHeader (code : Int)
  | Write (b : GoString)
  deriving DecidableEq, Repr

/-- Modelled from the spec: the response wrapper `Response` (its file is not
part of the sources at hand). It tracks the header map, the status code and
a flag "has content been written", and offers `headers()`,
`writeStatus(code)`, `write(bytes)` and `wrote()`. The field `calls` records,
in order, the calls the wrapper received. -/
structure Response where
  header : Header := []
  status : Int := 0
  wrote : Bool := false
  calls : List RespCall := []
  deriving DecidableEq, Repr

/-- Modelled from the spec: `c.Resp.Header().Set(key, value)`. -/
def Response.HeaderSet (r : Response) (key value : GoString) : Response :=
  { r with header := Header.Set r.header key value,
           calls := r.calls ++ [.HeaderSet key value] }

/-- Modelled from the spec: `c.Resp.Header().Add(key, value)`. -/
def Response.HeaderAdd (r : Response) (key value : GoString) : Response :=
  { r with header := Header.Add r.header key value,
           calls := r.calls ++ [.HeaderAdd key value] }

/-- Modelled from the spec: `writeStatus(code)` of the response wrapper. -/
def Response.WriteHeader (r : Response) (code : Int) : Response :=
  { r with status := code, wrote := true, calls := r.calls ++ [.WriteHeader code] }

/-- Modelled from the spec: `write(bytes)` of the response wrapper. -/
def Response.Write (r : Response) (b : GoString) : Response :=
  { r with wrote := true, calls := r.calls ++ [.Write b] }

/-- Modelled from the spec: `wrote()` of the response wrapper. -/
def Response.Wrote (r : Response) : Bool := r.wrote

/-- Modelled from the spec: `Response.reset(w)`, which rebinds the wrapper to
the writer of a new request; a writer is given by its (fresh) header map. -/
def Response.reset (_r : Response) (w : Header) : Response :=
  { header := w, status := 0, wrote := false, calls := [] }

/-- A method call on the context made by the body of a handler. -/
inductive Call where
  | Next
  | SetParam (name value : GoString)
  | Set (key : GoString) (v : Any)
  | SetCookie (name value : GoString) (others : List Any)
  | String (code : Int) (s : GoString)
  | Text (code : Int) (s : GoString)
  | JSON (code : Int) (v : Any)
  | JSONP (code : Int) (callback : GoString) (v : Any)
  | XML (code : Int) (v : Any)
  | Redirect (code : Int) (url : GoString)
  deriving DecidableEq, Repr

/-- A `HandlerFunc` value: `nil`, or a function, given by the calls it makes
on the context it receives, in order. -/
inductive HandlerFunc where
  | nil
  | fn (body : List Call)
  deriving DecidableEq, Repr

/-- A Go slice: `arr` holds the cells of the backing array from the first
cell of the slice on, so its length is the capacity; `len` is the length. -/
structure Slice (α : Type) where
  arr : List α
  len : Nat
  deriving DecidableEq, Repr

/-- Go `cap(s)`. -/
def Slice.cap {α : Type} (s : Slice α) : Nat := s.arr.length

/-- The elements of the slice. -/
def Slice.toList {α : Type} (s : Slice α) : List α := s.arr.take s.len

/-- Go `make([]T, len, cap)` with zero value `z`. -/
def Slice.make {α : Type} (z : α) (len cap : Nat) : Slice α :=
  ⟨List.replicate cap z, len⟩

/-- Go `copy(dst, src)`. -/
def Slice.copy {α : Type} (dst : Slice α) (src : List α) : Slice α :=
  let n := min dst.len src.length
  ⟨src.take n ++ dst.arr.drop n, dst.len⟩

/-- Go `s[:n]`: panics when `n` exceeds the capacity. -/
def Slice.reslice {α : Type} (s : Slice α) (n : Nat) : Except Fault (Slice α) :=
  if n ≤ s.cap then .ok ⟨s.arr, n⟩ else .error .panic

/-- Go `s[i]`: `none` when the index is out of range. -/
def Slice.index {α : Type} (s : Slice α) (i : Nat) : Option α :=
  if i < s.len then s.arr.get? i else none

/-- The context of one request. `trace` and `logged` are not fields of the Go
struct: `trace` records, for every handler that `Next` invokes, its index in
the chain and the cursor the handler is entered with; `logged` holds the
lines `Next` sends to the application's logger. -/
structure Context where
  Req : Request := {}
  Resp : Response := {}
  store : Option (List (GoString × Any)) := none
  pNames : List GoString := []
  pValues : List GoString := []
  handlers : Slice HandlerFunc := ⟨[], 0⟩
  hi : Nat := 0
  trace : List (Nat × Nat) := []
  logged : List GoString := []
  deriving DecidableEq, Repr

/-- Library routines that are used as given. -/
structure Lib where
  /-- Go `json.Marshal`: the encoding, or an error. -/
  jsonMarshal : Any → Except GoString GoString
  /-- Go `json.MarshalIndent(v, "", "  ")`. -/
  jsonMarshalIndent : Any → Except GoString GoString
  /-- Go `xml.Marshal`. -/
  xmlMarshal : Any → Except GoString GoString
  /-- Go `xml.MarshalIndent(v, "", "  ")`. -/
  xmlMarshalIndent : Any → Except GoString GoString
  /-- The domain check of `(*http.Cookie).String`. -/
  validCookieDomain : GoString → Bool
  /-- The `Location` value `http.Redirect` derives from the request and the url. -/
  redirectLocation : Request → GoString → GoString
  /-- The short HTML body `http.Redirect` writes for a GET request. -/
  redirectBody : GoString → Int → GoString

/-- The application `*Baa` as far as `Context` uses it: the debug flag, the
globally registered middleware, and the error handler behind `Baa.Error`. -/
structure App where
  debug : Bool := false
  middleware : List HandlerFunc := []
  errorHandler : GoString → Context → Context := fun _ c => c

/-! ## Context -/

/-- Go `ContentType`. -/
def ContentType : GoString := lit "Content-Type"
/-- Go `TextPlainCharsetUTF8`. -/
def TextPlainCharsetUTF8 : GoString := lit "text/plain; charset=utf-8"
/-- Go `TextHTMLCharsetUTF8`. -/
def TextHTMLCharsetUTF8 : GoString := lit "text/html; charset=utf-8"
/-- Go `ApplicationJSONCharsetUTF8`. -/
def ApplicationJSONCharsetUTF8 : GoString := lit "application/json; charset=utf-8"
/-- Go `ApplicationJavaScriptCharsetUTF8`. -/
def ApplicationJavaScriptCharsetUTF8 : GoString := lit "application/javascript; charset=utf-8"
/-- Go `ApplicationXMLCharsetUTF8`. -/
def ApplicationXMLCharsetUTF8 : GoString := lit "application/xml; charset=utf-8"
/-- Go `xml.Header`. -/
def xmlHeader : GoString := lit "<?xml version=\"1.0\" encoding=\"UTF-8\"?>\n"

/-- Go `(*Context).reset`: panics when the middleware is longer than the
capacity of the handler chain. -/
def Context.reset (b : App) (c : Context) (w : Header) (r : Request) : Except Fault Context :=
  match c.handlers.reslice b.middleware.length with
  | .error e => .error e
  | .ok hs =>
    .ok { c with
      Resp := c.Resp.reset w, Req := r, hi := 0, handlers := hs,
      pNames := c.pNames.take 0, pValues := c.pValues.take 0, store := none }

/-- Go `newContext`. -/
def newContext (w : Header) (r : Request) (b : App) : Except Fault Context :=
  let c : Context := {}
  let c := { c with Resp := Response.reset {} w }
  let c := { c with pNames := [], pValues := [] }
  let c := { c with handlers :=
    (Slice.make HandlerFunc.nil b.middleware.length (b.middleware.length + 3)).copy b.middleware }
  c.reset b w r

/-- Go `(*Context).Set`. -/
def Context.Set (c : Context) (key : GoString) (v : Any) : Context :=
  let m := match c.store with
    | none => []
    | some m => m
  { c with store := some ((key, v) :: m.filter (·.1 ≠ key)) }

/-- Go `(*Context).Get`: `Any.nil` for a key that is not in the store. -/
def Context.Get (c : Context) (key : GoString) : Any :=
  match c.store with
  | none => .nil
  | some m =>
    match m.find? (·.1 = key) with
    | some e => e.2
    | none => .nil

/-- Go `(*Context).SetParam`. -/
def Context.SetParam (c : Context) (name value : GoString) : Context :=
  { c with pNames := c.pNames ++ [name], pValues := c.pValues ++ [value] }

/-- The loop of `(*Context).Param` from index `i` on, over the names from
that index on; `pValues[i]` panics when it is out of range. -/
def paramLoop (name : GoString) (pValues : List GoString) :
    List GoString → Nat → Except Fault GoString
  | [], _ => .ok []
  | n :: rest, i =>
    if n = name then
      match pValues.get? i with
      | some v => .ok v
      | none => .error .panic
    else paramLoop name pValues rest (i + 1)

/-- Go `(*Context).Param`. -/
def Context.Param (c : Context) (name : GoString) : Except Fault GoString :=
  paramLoop name c.pValues c.pNames 0

/-- The cookie that `(*Context).SetCookie` builds before it is written to
the header. -/
def buildCookie (name value : GoString) (others : List Any) : Cookie :=
  let cookie : Cookie := {}
  let cookie := { cookie with Name := name }
  let cookie := { cookie with Value := QueryEscape value }
  let cookie :=
    match others.get? 0 with
    | some (.int v) => { cookie with MaxAge := v }
    | some (.int64 v) => { cookie with MaxAge := toInt v }
    | some (.int32 v) => { cookie with MaxAge := toInt v }
    | _ => cookie
  let cookie := { cookie with Path := lit "/" }
  let cookie :=
    match others.get? 1 with
    | some (.string v) => if v.length > 0 then { cookie with Path := v } else cookie
    | _ => cookie
  let cookie :=
    match others.get? 2 with
    | some (.string v) => if v.length > 0 then { cookie with Domain := v } else cookie
    | _ => cookie
  let cookie :=
    match others.get? 3 with
    | none => cookie
    | some (.bool v) => { cookie with Secure := v }
    | some .nil => cookie
    | some _ => { cookie with Secure := true }
  match others.get? 4 with
  | some (.bool true) => { cookie with HttpOnly := true }
  | _ => cookie

/-- Go `(*Context).SetCookie`. -/
def Context.SetCookie (lib : Lib) (c : Context) (name value : GoString) (others : List Any) :
    Context :=
  let cookie := buildCookie name value others
  { c with Resp := c.Resp.HeaderAdd (lit "Set-Cookie") (cookie.String lib.validCookieDomain) }

/-- Go `(*Context).GetCookie`. -/
def Context.GetCookie (c : Context) (name : GoString) : GoString :=
  match c.Req.Cookie name with
  | none => []
  | some cookie => (QueryUnescape cookie.Value).1

/-- Go `(*Context).String`. -/
def Context.String (c : Context) (code : Int) (s : GoString) : Context :=
  let resp := c.Resp.HeaderSet ContentType TextPlainCharsetUTF8
  let resp := resp.WriteHeader code
  { c with Resp := resp.Write s }

/-- Go `(*Context).Text`. -/
def Context.Text (c : Context) (code : Int) (s : GoString) : Context :=
  let resp := c.Resp.HeaderSet ContentType TextHTMLCharsetUTF8
  let resp := resp.WriteHeader code
  { c with Resp := resp.Write s }

/-- Go `(*Context).Error`. -/
def Context.Error (b : App) (c : Context) (err : GoString) : Context :=
  b.errorHandler err c

/-- Go `(*Context).JSON`. -/
def Context.JSON (lib : Lib) (b : App) (c : Context) (code : Int) (v : Any) : Context :=
  match (if b.debug then lib.jsonMarshalIndent v else lib.jsonMarshal v) with
  | .error err => c.Error b err
  | .ok re =>
    let resp := c.Resp.HeaderSet ContentType ApplicationJSONCharsetUTF8
    let resp := resp.WriteHeader code
    { c with Resp := resp.Write re }

/-- Go `(*Context).JSONP`. -/
def Context.JSONP (lib : Lib) (b : App) (c : Context) (code : Int) (callback : GoString)
    (v : Any) : Context :=
  match lib.jsonMarshal v with
  | .error err => c.Error b err
  | .ok re =>
    let resp := c.Resp.HeaderSet ContentType ApplicationJavaScriptCharsetUTF8
    let resp := resp.WriteHeader code
    let resp := resp.Write (callback ++ lit "(")
    let resp := resp.Write re
    { c with Resp := resp.Write (lit ");") }

/-- Go `(*Context).XML`. -/
def Context.XML (lib : Lib) (b : App) (c : Context) (code : Int) (v : Any) : Context :=
  match (if b.debug then lib.xmlMarshalIndent v else lib.xmlMarshal v) with
  | .error err => c.Error b err
  | .ok re =>
    let resp := c.Resp.HeaderSet ContentType ApplicationXMLCharsetUTF8
    let resp := resp.WriteHeader code
    let resp := resp.Write xmlHeader
    { c with Resp := resp.Write re }

/-- Go `http.Redirect(w, r, url, code)` with the response wrapper as `w`:
sets `Location` (and a content type, if none is set, for GET and HEAD),
writes the status, and for GET a short body. -/
def httpRedirect (lib : Lib) (w : Response) (r : Request) (url : GoString) (code : Int) :
    Response :=
  let hadCT := w.header.any (·.1 = ContentType)
  let w := w.HeaderSet (lit "Location") (lib.redirectLocation r url)
  let w := if ¬ hadCT ∧ (r.Method = lit "GET" ∨ r.Method = lit "HEAD") then
      w.HeaderSet ContentType TextHTMLCharsetUTF8 else w
  let w := w.WriteHeader code
  if ¬ hadCT ∧ r.Method = lit "GET" then w.Write (lib.redirectBody url code) else w

/-- Go `(*Context).Redirect`: the context afterwards and the error returned
(`none` is `nil`). -/
def Context.Redirect (lib : Lib) (c : Context) (code : Int) (url : GoString) :
    Context × Option GoString :=
  if code < 300 ∨ code > 307 then (c, some (lit "invalid redirect status code"))
  else ({ c with Resp := httpRedirect lib c.Resp c.Req url code }, none)

/-- One call of a handler body; `next` is what `c.Next()` does. -/
def applyCall (lib : Lib) (b : App) (next : Context → Except Fault Context) :
    Call → Context → Except Fault Context
  | .Next, c => next c
  | .SetParam name value, c => .ok (c.SetParam name value)
  | .Set key v, c => .ok (c.Set key v)
  | .SetCookie name value others, c => .ok (c.SetCookie lib name value others)
  | .String code s, c => .ok (c.String code s)
  | .Text code s, c => .ok (c.Text code s)
  | .JSON code v, c => .ok (c.JSON lib b code v)
  | .JSONP code callback v, c => .ok (c.JSONP lib b code callback v)
  | .XML code v, c => .ok (c.XML lib b code v)
  | .Redirect code url, c => .ok (c.Redirect lib code url).1

/-- The calls of a handler body, one after the other. -/
def runBody (lib : Lib) (b : App) (next : Context → Except Fault Context) :
    List Call → Context → Except Fault Context
  | [], c => .ok c
  | op :: rest, c =>
    match applyCall lib b next op c with
    | .error e => .error e
    | .ok c1 => runBody lib b next rest c1

/-- Go `(*Context).Next`. The first argument bounds the depth of nested
calls; `Fault.fuel` is returned when it is used up. -/
def Context.Next (lib : Lib) (b : App) : Nat → Context → Except Fault Context
  | 0, _ => .error .fuel
  | fuel + 1, c =>
    if c.Resp.Wrote then
      .ok { c with logged := c.logged ++
        [lit "Warning: content has been written, handle chain break."] }
    else if c.hi ≥ c.handlers.len then .ok c
    else
      let i := c.hi
      let c := { c with hi := c.hi + 1 }
      match c.handlers.index i with
      | none => .error .panic
      | some .nil => .error .panic
      | some (.fn body) =>
        runBody lib b (Context.Next lib b fuel) body { c with trace := c.trace ++ [(i, c.hi)] }




/-- The `SetParam` calls of a request, made in order. -/
def setParams (c : Context) (calls : List (GoString × GoString)) : Context :=
  calls.foldl (fun c p => c.SetParam p.1 p.2) c

/-- Go `append(s, xs...)` with zero value `z`: in place when the capacity
suffices. Otherwise the elements move to a new backing array; how large the
run time makes it is not fixed by the language, so the capacity it picks is
given by `growCap oldCap needed` (and is never less than what is needed). -/
def Slice.append {α : Type} (z : α) (growCap : Nat → Nat → Nat) (s : Slice α) (xs : List α) :
    Slice α :=
  if s.len + xs.length ≤ s.cap then
    ⟨s.arr.take s.len ++ xs ++ s.arr.drop (s.len + xs.length), s.len + xs.length⟩
  else
    ⟨s.toList ++ xs ++
        List.replicate (max (s.len + xs.length) (growCap s.cap (s.len + xs.length)) -
          (s.len + xs.length)) z,
      s.len + xs.length⟩

/-- Modelled from the spec: the router's step of a request, which is not in
`context.go`: the handler chain becomes (global middleware, in registration
order) + (route-specific handlers), the latter appended to the chain left by
`reset`. -/
def Context.route (growCap : Nat → Nat → Nat) (c : Context) (routeHandlers : List HandlerFunc) :
    Context :=
  { c with handlers := c.handlers.append HandlerFunc.nil growCap routeHandlers }

/-- The `Set` calls of a request, made in order. -/
def setAll (c : Context) (calls : List (GoString × Any)) : Context :=
  calls.foldl (fun c p => c.Set p.1 p.2) c

/-- A library whose marshallers encode every value as `null`, used in
examples. -/
def exampleLib : Lib where
  jsonMarshal := fun _ => .ok (lit "null")
  jsonMarshalIndent := fun _ => .ok (lit "null")
  xmlMarshal := fun _ => .ok (lit "<null></null>")
  xmlMarshalIndent := fun _ => .ok (lit "<null></null>")
  validCookieDomain := fun _ => true
  redirectLocation := fun _ url => url
  redirectBody := fun _ _ => []

/-- The middleware `m1` of the examples: sets a parameter and continues. -/
def m1 : HandlerFunc := .fn [.SetParam (lit "mw") (lit "1"), .Next]

/-- The middleware `m2` of the examples: sets a store entry and continues. -/
def m2 : HandlerFunc := .fn [.Set (lit "mw") (.int 2), .Next]

/-- The route handler `r1` of the examples: writes a plain-text response. -/
def r1 : HandlerFunc := .fn [.String 200 (lit "ok")]

/-- The handler chain of a context that was created by `newContext` when the
middleware was `before`, served one request with route handlers `route`, and
is then reset when the middleware is `after`. -/
def chainAfterReuse (growCap : Nat → Nat → Nat) (before after route : List HandlerFunc) :
    Except Fault (List HandlerFunc) :=
  match newContext [] {} { middleware := before } with
  | .error e => .error e
  | .ok c =>
    match (c.route growCap route).reset { middleware := after } [] {} with
    | .error e => .error e
    | .ok c1 => .ok c1.handlers.toList

/-- The encoder calls: String, Text, JSON, JSONP and XML. -/
def Call.isEncoder : Call → Bool
  | .String _ _ => true
  | .Text _ _ => true
  | .JSON _ _ => true
  | .JSONP _ _ _ => true
  | .XML _ _ => true
  | _ => false

/-- Whether the marshalling step of an encoder call succeeds; String and
Text have none. -/
def Call.marshals (lib : Lib) (b : App) : Call → Bool
  | .JSON _ v =>
    match (if b.debug then lib.jsonMarshalIndent v else lib.jsonMarshal v) with
    | .ok _ => true
    | .error _ => false
  | .JSONP _ _ v =>
    match lib.jsonMarshal v with
    | .ok _ => true
    | .error _ => false
  | .XML _ v =>
    match (if b.debug then lib.xmlMarshalIndent v else lib.xmlMarshal v) with
    | .ok _ => true
    | .error _ => false
  | _ => true

/-- The number of status writes the response has received. -/
def Response.statusWrites (r : Response) : Nat :=
  r.calls.countP fun
    | .WriteHeader _ => true
    | _ => false

/-- The number of body writes the response has received. -/
def Response.bodyWrites (r : Response) : Nat :=
  r.calls.countP fun
    | .Write _ => true
    | _ => false

/-- The calls that write the response: the encoders and Redirect. -/
def Call.writesResponse : Call → Bool
  | .String _ _ => true
  | .Text _ _ => true
  | .JSON _ _ => true
  | .JSONP _ _ _ => true
  | .XML _ _ => true
  | .Redirect _ _ => true
  | _ => false

/-- A handler that calls Next exactly once and does not write the response. -/
def HandlerFunc.continues : HandlerFunc → Bool
  | .nil => false
  | .fn body => body.count Call.Next == 1 && body.all fun op => !op.writesResponse

/-- The cookie-pair a user agent sends back in the `Cookie` header for a
`Set-Cookie` line it received: the text before the first `;`. -/
def cookiePair (setCookie : GoString) : GoString :=
  setCookie.takeWhile (· ≠ ch ';')

theorem setParams_pNames (c : Context) (calls : List (GoString × GoString)) :
    (setParams c calls).pNames = c.pNames ++ calls.map (·.1) ∧
    (setParams c calls).pValues = c.pValues ++ calls.map (·.2) := by
  induction calls generalizing c with
  | nil => simp [setParams]
  | cons p rest ih =>
    have h := ih (c.SetParam p.1 p.2)
    have e : setParams c (p :: rest) = setParams (c.SetParam p.1 p.2) rest := rfl
    rw [e, h.1, h.2]
    simp [Context.SetParam]

theorem get?_length_append {α : Type} (pre : List α) (x : α) (xs : List α) :
    (pre ++ x :: xs).get? pre.length = some x := by
  induction pre with
  | nil => rfl
  | cons a as ih => simpa using ih

theorem paramLoop_aligned (name : GoString) (pre : List GoString)
    (calls : List (GoString × GoString)) :
    paramLoop name (pre ++ calls.map (·.2)) (calls.map (·.1)) pre.length =
      .ok (match calls.find? (·.1 = name) with
        | some p => p.2
        | none => []) := by
  induction calls generalizing pre with
  | nil => simp [paramLoop]
  | cons p rest ih =>
    by_cases hp : p.1 = name
    · simp only [List.map_cons, paramLoop, hp, if_true, get?_length_append]
      simp [List.find?_cons, hp]
    · have := ih (pre ++ [p.2])
      simp at this
      simp [paramLoop, hp, this]

theorem reset_fields (b : App) (c c0 : Context) (w : Header) (r : Request)
    (h : c.reset b w r = .ok c0) :
    c0.pNames = [] ∧ c0.pValues = [] ∧ c0.store = none ∧ c0.hi = 0 ∧
    c0.handlers = ⟨c.handlers.arr, b.middleware.length⟩ ∧
    b.middleware.length ≤ c.handlers.cap := by
  unfold Context.reset Slice.reslice at h
  split at h
  · simp at h
  · rename_i hs heq
    split at heq
    · simp at heq h
      subst heq; subst h
      simp_all
    · simp at heq

/-- C4. After any sequence of SetParam calls on a freshly reset context,
Param(name) is the value of the first call made with that name, and the
empty string when no call used the name. -/
theorem Param_first_SetParam (b : App) (c c0 : Context) (w : Header) (r : Request)
    (hreset : c.reset b w r = .ok c0) (calls : List (GoString × GoString)) (name : GoString) :
    (setParams c0 calls).Param name =
      .ok (match calls.find? (·.1 = name) with
        | some p => p.2
        | none => []) := by
  obtain ⟨hn, hv, -⟩ := reset_fields b c c0 w r hreset
  have := paramLoop_aligned name [] calls
  simpa [Context.Param, (setParams_pNames c0 calls).1, (setParams_pNames c0 calls).2, hn, hv]
    using this

theorem Param_first_SetParam_witness :
    ∃ c0, ({} : Context).reset {} [] {} = .ok c0 ∧
      (setParams c0 [(lit "id", lit "1"), (lit "id", lit "2")]).Param (lit "id") = .ok (lit "1") :=
  ⟨_, rfl, Param_first_SetParam {} {} _ [] {} rfl [(lit "id", lit "1"), (lit "id", lit "2")] (lit "id")⟩

/-- C8. After reset on a reused context, whatever SetParam and Set calls the
previous request made, Param returns the empty string for every name, Get
returns nil for every key, the store is empty, both parameter sequences have
length zero and the cursor is 0. -/
theorem reset_clears_request_state (b : App) (c c1 : Context)
    (params : List (GoString × GoString)) (sets : List (GoString × Any))
    (w : Header) (r : Request)
    (hreset : (setAll (setParams c params) sets).reset b w r = .ok c1) :
    (∀ name, c1.Param name = .ok []) ∧ (∀ key, c1.Get key = Any.nil) ∧ c1.store = none ∧
    c1.pNames.length = 0 ∧ c1.pValues.length = 0 ∧ c1.hi = 0 := by
  obtain ⟨hn, hv, hs, hh, -⟩ := reset_fields b _ c1 w r hreset
  refine ⟨?_, ?_, hs, by simp [hn], by simp [hv], hh⟩
  · intro name
    simp [Context.Param, hn, paramLoop]
  · intro key
    simp [Context.Get, hs]

theorem reset_clears_request_state_witness :
    ∃ c1, (setAll (setParams {} [(lit "x", lit "1")]) [(lit "k", Any.int 1)]).reset {} [] {}
        = .ok c1 ∧ c1.Param (lit "x") = .ok [] ∧ c1.Get (lit "k") = Any.nil :=
  ⟨_, rfl,
    (reset_clears_request_state {} {} _ [(lit "x", lit "1")] [(lit "k", Any.int 1)] [] {} rfl).1 _,
    (reset_clears_request_state {} {} _ [(lit "x", lit "1")] [(lit "k", Any.int 1)] [] {} rfl).2.1 _⟩

/-- C2. In the halted state (the response reports content written, whatever
the cursor, or the cursor is at or past the chain length) Next returns
without invoking a handler and leaves the cursor and the chain unchanged;
nothing but the logger output differs afterwards. -/
theorem Next_halted_noop (lib : Lib) (b : App) (fuel : Nat) (c : Context)
    (hhalt : c.Resp.Wrote = true ∨ c.hi ≥ c.handlers.len) :
    ∃ c1, c.Next lib b (fuel + 1) = .ok c1 ∧ c1.trace = c.trace ∧ c1.hi = c.hi ∧
      c1.handlers = c.handlers ∧ c1 = { c with logged := c1.logged } := by
  unfold Context.Next
  by_cases hw : c.Resp.Wrote = true
  · simp [hw]
  · rcases hhalt with h | h
    · exact absurd h hw
    · simp [hw, h]

theorem Next_halted_noop_witness :
    ∃ c1, ({ Resp := { wrote := true }, handlers := ⟨[.fn [.Next]], 1⟩ } : Context).Next
        exampleLib {} 1 = .ok c1 ∧ c1.trace = [] ∧ c1.hi = 0 :=
  let ⟨c1, h1, h2, h3, _⟩ := Next_halted_noop exampleLib {} 0
    ({ Resp := { wrote := true }, handlers := ⟨[.fn [.Next]], 1⟩ } : Context) (Or.inl rfl)
  ⟨c1, h1, h2, h3⟩

theorem Header_Values_Set_same (h : Header) (key value : GoString) :
    Header.Values (Header.Set h key value) key = [value] := by
  simp [Header.Values, Header.Set]

theorem Header_find_filter_ne (h : Header) (key key2 : GoString) (hne : key2 ≠ key) :
    (h.filter (·.1 ≠ key2)).find? (·.1 = key) = h.find? (·.1 = key) := by
  induction h with
  | nil => rfl
  | cons a as ih =>
    by_cases hk : a.1 = key
    · have ha : ¬ key = key2 := fun h2 => hne h2.symm
      simp [List.filter_cons, ha, List.find?_cons, hk]
    · by_cases ha : a.1 = key2
      · simpa [List.filter_cons, ha, List.find?_cons, hk, hne] using ih
      · simpa [List.filter_cons, ha, List.find?_cons, hk] using ih

theorem Header_Values_Set_other (h : Header) (key key2 value : GoString) (hne : key2 ≠ key) :
    Header.Values (Header.Set h key2 value) key = Header.Values h key := by
  have e : (decide (key2 = key)) = false := by simpa using hne
  simp only [Header.Values, Header.Set, List.find?_cons, e]
  rw [Header_find_filter_ne h key key2 hne]

/-- C5. Redirect returns the error "invalid redirect status code" exactly
when the code is below 300 or above 307, and then the context, with its
response, is unchanged; for every code from 300 to 307 it returns no error,
the response holds the Location header and has received the status code (so
it is no longer the response it was). -/
theorem Redirect_status_range (lib : Lib) (c : Context) (code : Int) (url : GoString) :
    ((c.Redirect lib code url).2 = some (lit "invalid redirect status code") ↔
        (code < 300 ∨ code > 307)) ∧
    ((code < 300 ∨ code > 307) → (c.Redirect lib code url).1 = c) ∧
    ((300 ≤ code ∧ code ≤ 307) →
      (c.Redirect lib code url).2 = none ∧
      Header.Values (c.Redirect lib code url).1.Resp.header (lit "Location")
        = [lib.redirectLocation c.Req url] ∧
      RespCall.WriteHeader code ∈ (c.Redirect lib code url).1.Resp.calls ∧
      c.Resp.calls.length < (c.Redirect lib code url).1.Resp.calls.length) := by
  have hne : ContentType ≠ lit "Location" := by decide
  refine ⟨?_, ?_, ?_⟩
  · by_cases h : code < 300 ∨ code > 307
    · simp [Context.Redirect, h]
    · simp [Context.Redirect, h]
  · intro h
    simp [Context.Redirect, h]
  · intro h
    have h2 : ¬ (code < 300 ∨ code > 307) := by omega
    simp only [Context.Redirect, h2, if_false, httpRedirect]
    refine ⟨trivial, ?_, ?_, ?_⟩
    · split <;> split <;>
        simp [Response.Write, Response.WriteHeader, Response.HeaderSet,
          Header_Values_Set_other _ _ _ _ hne, Header_Values_Set_same]
    · split <;> split <;> simp [Response.Write, Response.WriteHeader, Response.HeaderSet]
    · split <;> split <;> simp [Response.Write, Response.WriteHeader, Response.HeaderSet]

theorem Redirect_status_range_witness :
    (({} : Context).Redirect exampleLib 302 (lit "/login")).2 = none ∧
    Header.Values (({} : Context).Redirect exampleLib 302 (lit "/login")).1.Resp.header
      (lit "Location") = [lit "/login"] ∧
    (({} : Context).Redirect exampleLib 200 (lit "/login")).1 = {} :=
  ⟨((Redirect_status_range exampleLib {} 302 (lit "/login")).2.2 (by decide)).1,
    ((Redirect_status_range exampleLib {} 302 (lit "/login")).2.2 (by decide)).2.1,
    (Redirect_status_range exampleLib {} 200 (lit "/login")).2.1 (by decide)⟩

theorem newContext_handlers (w : Header) (r : Request) (b : App) :
    ∃ c, newContext w r b = .ok c ∧
      c.handlers = ⟨b.middleware ++ List.replicate 3 HandlerFunc.nil, b.middleware.length⟩ := by
  simp [newContext, Context.reset, Slice.reslice, Slice.cap, Slice.copy, Slice.make,
    List.drop_replicate]

theorem Slice_append_arr {α : Type} (z : α) (growCap : Nat → Nat → Nat) (s : Slice α)
    (xs : List α) : ∃ tail, (s.append z growCap xs).arr = s.arr.take s.len ++ xs ++ tail := by
  unfold Slice.append
  split
  · exact ⟨_, rfl⟩
  · exact ⟨_, rfl⟩

/-- While the middleware is the one the context was created with, reset
leaves exactly the middleware in the chain, whatever route handlers the
previous request appended and whatever capacity a growing append picked. -/
theorem chainAfterReuse_same_middleware (growCap : Nat → Nat → Nat)
    (mw route : List HandlerFunc) : chainAfterReuse growCap mw mw route = .ok mw := by
  obtain ⟨c, hc, hh⟩ := newContext_handlers [] {} { middleware := mw }
  obtain ⟨tail, ht⟩ := Slice_append_arr HandlerFunc.nil growCap c.handlers route
  have harr : (c.route growCap route).handlers.arr = mw ++ (route ++ tail) := by
    show (c.handlers.append HandlerFunc.nil growCap route).arr = _
    rw [ht, hh]
    simp
  have hle : mw.length ≤ (c.route growCap route).handlers.cap := by
    simp [Slice.cap, harr]
  simp only [chainAfterReuse, hc, Context.reset, Slice.reslice, hle, if_true, Slice.toList, harr]
  simp

/-- C10, evaluated where it fails. A context is created while the middleware
is [m1]. After a request that appended the route handler r1 and the
registration of m2, reset leaves the chain [m1, r1] instead of [m1, m2];
without a route handler it leaves [m1, nil]; and with four middleware
registered after creation reset panics, slicing past the capacity. In all
three the append, if any, is in place, so the capacity a growing append would
pick plays no part. -/
theorem reset_after_late_middleware (growCap : Nat → Nat → Nat) :
    chainAfterReuse growCap [m1] [m1, m2] [r1] = .ok [m1, r1] ∧
    chainAfterReuse growCap [m1] [m1, m2] [] = .ok [m1, HandlerFunc.nil] ∧
    chainAfterReuse growCap [m1] [m1, m2, m2, m2, m2] [r1] = .error Fault.panic ∧
    ([m1, r1] : List HandlerFunc) ≠ [m1, m2] :=
  ⟨rfl, rfl, rfl, by decide⟩

/-- C3 fails as stated: String does not look at the written flag. Called on
a context whose response already reports content written, it passes a second
status and a second body to the response. -/
theorem String_after_write_writes_again :
    (({} : Context).String 200 (lit "a")).Resp.Wrote = true ∧
    ((({} : Context).String 200 (lit "a")).String 500 (lit "b")).Resp.calls =
      (({} : Context).String 200 (lit "a")).Resp.calls ++
        [RespCall.HeaderSet ContentType TextPlainCharsetUTF8, RespCall.WriteHeader 500,
          RespCall.Write (lit "b")] ∧
    ((({} : Context).String 200 (lit "a")).String 500 (lit "b")).Resp.statusWrites = 2 ∧
    ((({} : Context).String 200 (lit "a")).String 500 (lit "b")).Resp.bodyWrites = 2 := by
  decide

theorem encoder_call_writes (lib : Lib) (b : App) (next : Context → Except Fault Context)
    (op : Call) (c : Context) (henc : op.isEncoder = true) (hm : op.marshals lib b = true) :
    ∃ c1, applyCall lib b next op c = .ok c1 ∧
      c1.Resp.statusWrites = c.Resp.statusWrites + 1 ∧
      c.Resp.bodyWrites + 1 ≤ c1.Resp.bodyWrites := by
  cases op with
  | String code s =>
    refine ⟨_, rfl, ?_, ?_⟩ <;>
      simp [Context.String, Response.statusWrites, Response.bodyWrites, Response.Write,
        Response.WriteHeader, Response.HeaderSet, List.countP_append, List.countP_cons]
  | Text code s =>
    refine ⟨_, rfl, ?_, ?_⟩ <;>
      simp [Context.Text, Response.statusWrites, Response.bodyWrites, Response.Write,
        Response.WriteHeader, Response.HeaderSet, List.countP_append, List.countP_cons]
  | JSON code v =>
    simp only [Call.marshals] at hm
    simp only [applyCall, Context.JSON]
    split at hm
    · rename_i re hre
      simp [hre, Response.statusWrites, Response.bodyWrites, Response.Write,
        Response.WriteHeader, Response.HeaderSet, List.countP_append, List.countP_cons]
    · simp at hm
  | JSONP code callback v =>
    simp only [Call.marshals] at hm
    simp only [applyCall, Context.JSONP]
    split at hm
    · rename_i re hre
      simp [hre, Response.statusWrites, Response.bodyWrites, Response.Write,
        Response.WriteHeader, Response.HeaderSet, List.countP_append, List.countP_cons]
    · simp at hm
  | XML code v =>
    simp only [Call.marshals] at hm
    simp only [applyCall, Context.XML]
    split at hm
    · rename_i re hre
      simp [hre, Response.statusWrites, Response.bodyWrites, Response.Write,
        Response.WriteHeader, Response.HeaderSet, List.countP_append, List.countP_cons]
    · simp at hm
  | _ => simp [Call.isEncoder] at henc

/-- C3, amended. No encoder consults the written flag of the response: for
every context, written or not, every sequence of String and Text calls and of
JSON, JSONP and XML calls whose value marshals without error runs to the end
and passes one status write and at least one body write per call to the
response. -/
theorem encoders_write_on_every_call (lib : Lib) (b : App)
    (next : Context → Except Fault Context) (calls : List Call) (c : Context)
    (hcalls : ∀ op ∈ calls, op.isEncoder = true ∧ op.marshals lib b = true) :
    ∃ c1, runBody lib b next calls c = .ok c1 ∧
      c1.Resp.statusWrites = c.Resp.statusWrites + calls.length ∧
      c.Resp.bodyWrites + calls.length ≤ c1.Resp.bodyWrites := by
  induction calls generalizing c with
  | nil => exact ⟨c, rfl, rfl, le_refl _⟩
  | cons op rest ih =>
    obtain ⟨c1, h1, hs1, hb1⟩ := encoder_call_writes lib b next op c
      (hcalls op (List.mem_cons_self _ _)).1 (hcalls op (List.mem_cons_self _ _)).2
    obtain ⟨c2, h2, hs2, hb2⟩ := ih c1 (fun o ho => hcalls o (List.mem_cons_of_mem _ ho))
    refine ⟨c2, ?_, ?_, ?_⟩
    · simp [runBody, h1, h2]
    · simp only [List.length_cons]; omega
    · simp only [List.length_cons]; omega

theorem encoders_write_on_every_call_witness :
    ∃ c1, runBody exampleLib {} (fun c => .ok c)
        [.String 200 (lit "a"), .JSON 500 Any.nil] { Resp := { wrote := true } } = .ok c1 ∧
      c1.Resp.statusWrites = 2 :=
  let ⟨c1, h1, h2, _⟩ := encoders_write_on_every_call exampleLib {} (fun c => .ok c)
    [.String 200 (lit "a"), .JSON 500 Any.nil] { Resp := { wrote := true } } (by decide)
  ⟨c1, h1, h2⟩

/-- C1 fails as stated: with cursor 0 and a chain whose only handler calls
Next once and writes nothing, Next invokes no handler and leaves the cursor at
0 when the response already reports content written. -/
theorem Next_on_written_response_skips_chain :
    (∀ h ∈ (⟨[HandlerFunc.fn [Call.Next]], 1⟩ : Slice HandlerFunc).toList, h.continues = true) ∧
    ∃ c1, ({ Resp := { wrote := true }, handlers := ⟨[.fn [.Next]], 1⟩, hi := 0 } : Context).Next
        exampleLib {} 2 = .ok c1 ∧ c1.trace = [] ∧ c1.hi = 0 ∧ c1.hi ≠ c1.handlers.len :=
  ⟨by decide, _, rfl, rfl, rfl, by decide⟩

theorem quiet_call (lib : Lib) (b : App) (next : Context → Except Fault Context) (op : Call)
    (c : Context) (hn : op ≠ Call.Next) (hw : op.writesResponse = false) :
    ∃ c1, applyCall lib b next op c = .ok c1 ∧ c1.hi = c.hi ∧ c1.handlers = c.handlers ∧
      c1.Resp.wrote = c.Resp.wrote ∧ c1.trace = c.trace := by
  cases op with
  | Next => exact absurd rfl hn
  | SetParam name value => exact ⟨_, rfl, rfl, rfl, rfl, rfl⟩
  | Set key v => exact ⟨_, rfl, rfl, rfl, rfl, rfl⟩
  | SetCookie name value others => exact ⟨_, rfl, rfl, rfl, rfl, rfl⟩
  | _ => simp [Call.writesResponse] at hw

theorem quiet_body (lib : Lib) (b : App) (next : Context → Except Fault Context)
    (ops : List Call) (c : Context)
    (hq : ∀ op ∈ ops, op ≠ Call.Next ∧ op.writesResponse = false) :
    ∃ c1, runBody lib b next ops c = .ok c1 ∧ c1.hi = c.hi ∧ c1.handlers = c.handlers ∧
      c1.Resp.wrote = c.Resp.wrote ∧ c1.trace = c.trace := by
  induction ops generalizing c with
  | nil => exact ⟨c, rfl, rfl, rfl, rfl, rfl⟩
  | cons op rest ih =>
    obtain ⟨c1, h1, a1, a2, a3, a4⟩ := quiet_call lib b next op c
      (hq op (List.mem_cons_self _ _)).1 (hq op (List.mem_cons_self _ _)).2
    obtain ⟨c2, h2, b1, b2, b3, b4⟩ := ih c1 (fun o ho => hq o (List.mem_cons_of_mem _ ho))
    exact ⟨c2, by simp [runBody, h1, h2], by rw [b1, a1], by rw [b2, a2], by rw [b3, a3],
      by rw [b4, a4]⟩

theorem runBody_append (lib : Lib) (b : App) (next : Context → Except Fault Context)
    (xs ys : List Call) (c c1 : Context) (h : runBody lib b next xs c = .ok c1) :
    runBody lib b next (xs ++ ys) c = runBody lib b next ys c1 := by
  induction xs generalizing c with
  | nil =>
    simp only [runBody, Except.ok.injEq] at h
    simp [h]
  | cons op rest ih =>
    simp only [runBody, List.cons_append] at h ⊢
    split at h
    · simp at h
    · rename_i c2 h2
      exact ih c2 h

theorem split_at_single_Next (body : List Call) (h : body.count Call.Next = 1) :
    ∃ pre post, body = pre ++ Call.Next :: post ∧ Call.Next ∉ pre ∧ Call.Next ∉ post := by
  induction body with
  | nil => simp at h
  | cons op rest ih =>
    by_cases hop : op = Call.Next
    · subst hop
      refine ⟨[], rest, rfl, by simp, ?_⟩
      simp only [List.count_cons_self] at h
      exact List.count_eq_zero.mp (by omega)
    · have hc : rest.count Call.Next = 1 := by
        rw [List.count_cons_of_ne (Ne.symm hop)] at h
        exact h
      obtain ⟨pre, post, e, h1, h2⟩ := ih hc
      refine ⟨op :: pre, post, by simp [e], ?_, h2⟩
      simp only [List.mem_cons, not_or]
      exact ⟨Ne.symm hop, h1⟩

theorem Slice_index_mem {α : Type} (s : Slice α) (i : Nat) (hi : i < s.len)
    (hcap : s.len ≤ s.cap) : ∃ x, s.index i = some x ∧ x ∈ s.toList := by
  have hlt : i < s.arr.length := lt_of_lt_of_le hi hcap
  refine ⟨s.arr[i], ?_, ?_⟩
  · simp [Slice.index, hi, List.getElem?_eq_getElem hlt]
  · unfold Slice.toList
    have h2 : i < (s.arr.take s.len).length := by
      simp only [List.length_take]
      exact lt_min hi hlt
    have : (s.arr.take s.len)[i] = s.arr[i] := by
      simp [List.getElem_take]
    rw [← this]
    exact List.getElem_mem h2

theorem Next_runs_from (lib : Lib) (b : App) (d : Nat) :
    ∀ (c : Context) (fuel : Nat), c.handlers.len - c.hi = d → c.hi ≤ c.handlers.len →
      c.handlers.len ≤ c.handlers.cap →
      (∀ h ∈ c.handlers.toList, h.continues = true) → c.Resp.wrote = false → d < fuel →
      ∃ c1, c.Next lib b fuel = .ok c1 ∧ c1.hi = c.handlers.len ∧ c1.handlers = c.handlers ∧
        c1.Resp.wrote = false ∧
        c1.trace = c.trace ++ (List.range' c.hi d).map fun i => (i, i + 1) := by
  induction d with
  | zero =>
    intro c fuel hd hle _ _ hw hf
    obtain ⟨f, rfl⟩ : ∃ f, fuel = f + 1 := ⟨fuel - 1, by omega⟩
    refine ⟨c, ?_, by omega, rfl, hw, by simp⟩
    have hge : c.hi ≥ c.handlers.len := by omega
    simp [Context.Next, Response.Wrote, hw, hge]
  | succ d ih =>
    intro c fuel hd hle hcap hgood hw hf
    obtain ⟨f, rfl⟩ : ∃ f, fuel = f + 1 := ⟨fuel - 1, by omega⟩
    have hlt : c.hi < c.handlers.len := by omega
    obtain ⟨h, hidx, hmem⟩ := Slice_index_mem c.handlers c.hi hlt hcap
    have hcont := hgood h hmem
    cases h with
    | nil => simp [HandlerFunc.continues] at hcont
    | fn body =>
      simp only [HandlerFunc.continues, Bool.and_eq_true, beq_iff_eq, List.all_eq_true,
        Bool.not_eq_true'] at hcont
      obtain ⟨pre, post, hbody, hpre, hpost⟩ := split_at_single_Next body hcont.1
      have hq : ∀ ops : List Call, (∀ op ∈ ops, op ∈ body) → Call.Next ∉ ops →
          ∀ op ∈ ops, op ≠ Call.Next ∧ op.writesResponse = false := by
        intro ops hsub hno op hop
        exact ⟨fun e => hno (e ▸ hop), hcont.2 op (hsub op hop)⟩
      -- the calls before Next
      obtain ⟨c1, hr1, a1, a2, a3, a4⟩ := quiet_body lib b (Context.Next lib b f) pre
        { c with hi := c.hi + 1, trace := c.trace ++ [(c.hi, c.hi + 1)] }
        (hq pre (fun op hop => by simp [hbody, hop]) hpre)
      simp only at a1 a2 a3 a4
      -- the nested call of Next
      obtain ⟨c2, hr2, b1, b2, b3, b4⟩ := ih c1 f (by rw [a1, a2]; omega) (by rw [a1, a2]; omega)
        (by rw [a2]; exact hcap) (by rw [a2]; exact hgood) (by rw [a3]; exact hw) (by omega)
      -- the calls after Next
      obtain ⟨c3, hr3, e1, e2, e3, e4⟩ := quiet_body lib b (Context.Next lib b f) post c2
        (hq post (fun op hop => by simp [hbody, hop]) hpost)
      refine ⟨c3, ?_, by rw [e1, b1, a2], by rw [e2, b2, a2], by rw [e3, b3], ?_⟩
      · have hrun : runBody lib b (Context.Next lib b f) body
            { c with hi := c.hi + 1, trace := c.trace ++ [(c.hi, c.hi + 1)] } = .ok c3 := by
          rw [hbody, runBody_append lib b _ pre (Call.Next :: post) _ c1 hr1]
          simp only [runBody, applyCall, hr2]
          exact hr3
        have hnot : ¬ c.hi ≥ c.handlers.len := by omega
        simp only [Context.Next, Response.Wrote, hw, hnot, if_false, hidx]
        exact hrun
      · rw [e4, b4, a4, a1, List.range'_succ]
        simp

/-- C1, amended. Take a context whose cursor is 0, whose response has not
been written, and whose chain (a slice: its length is within its capacity)
consists of handlers that call Next exactly once and do not write the
response. One call to Next, given a step budget above the chain length,
returns; it has invoked every handler exactly once, in chain order from index
0, each handler entered with the cursor one past its own index; and the
cursor ends equal to the chain length. -/
theorem Next_runs_whole_chain (lib : Lib) (b : App) (c : Context) (extra : Nat)
    (hcursor : c.hi = 0) (hfresh : c.Resp.Wrote = false)
    (hslice : c.handlers.len ≤ c.handlers.cap)
    (hchain : ∀ h ∈ c.handlers.toList, h.continues = true) :
    ∃ c1, c.Next lib b (c.handlers.len + 1 + extra) = .ok c1 ∧
      c1.trace = c.trace ++ (List.range c.handlers.len).map (fun i => (i, i + 1)) ∧
      c1.hi = c.handlers.len ∧ c1.handlers = c.handlers := by
  obtain ⟨c1, h1, h2, h3, _, h5⟩ := Next_runs_from lib b c.handlers.len c
    (c.handlers.len + 1 + extra) (by omega) (by omega) hslice hchain hfresh (by omega)
  refine ⟨c1, h1, ?_, h2, h3⟩
  rw [h5, hcursor, List.range_eq_range']

theorem Next_runs_whole_chain_witness :
    ∃ c1, ({ handlers := ⟨[m1, m2], 2⟩ } : Context).Next exampleLib {} 3 = .ok c1 ∧
      c1.trace = [(0, 1), (1, 2)] ∧ c1.hi = 2 :=
  let ⟨c1, h1, h2, h3, _⟩ := Next_runs_whole_chain exampleLib {}
    ({ handlers := ⟨[m1, m2], 2⟩ } : Context) 0 rfl rfl (by decide) (by decide)
  ⟨c1, h1, h2, h3⟩

set_option maxRecDepth 100000 in
theorem escapeByte_shape : ∀ c : Byte,
    (escapeByte c = [ch '+'] ∨
      escapeByte c = [ch '%', upperhex (c.val >>> 4), upperhex (c.val &&& 15)] ∨
      escapeByte c = [c] ∧ shouldEscape c = false) ∧
    (validCookieValueByte (upperhex (c.val >>> 4)) && upperhex (c.val >>> 4) != ch ' ' &&
      upperhex (c.val >>> 4) != ch ',' && !isASCIISpace (upperhex (c.val >>> 4)) &&
      upperhex (c.val >>> 4) != ch ';' && upperhex (c.val >>> 4) != 34) = true ∧
    (validCookieValueByte (upperhex (c.val &&& 15)) && upperhex (c.val &&& 15) != ch ' ' &&
      upperhex (c.val &&& 15) != ch ',' && !isASCIISpace (upperhex (c.val &&& 15)) &&
      upperhex (c.val &&& 15) != ch ';' && upperhex (c.val &&& 15) != 34) = true ∧
    (shouldEscape c || (validCookieValueByte c && c != ch ' ' && c != ch ',' &&
      !isASCIISpace c && c != ch ';' && c != 34)) = true := by
  decide!

theorem escapeByte_safe (c : Byte) (x : Byte) (hx : x ∈ escapeByte c) :
    validCookieValueByte x = true ∧ x ≠ ch ' ' ∧ x ≠ ch ',' ∧ isASCIISpace x = false ∧
      x ≠ ch ';' ∧ x ≠ 34 := by
  have hfix : ∀ y : Byte, (validCookieValueByte y && y != ch ' ' && y != ch ',' &&
      !isASCIISpace y && y != ch ';' && y != 34) = true →
      validCookieValueByte y = true ∧ y ≠ ch ' ' ∧ y ≠ ch ',' ∧ isASCIISpace y = false ∧
        y ≠ ch ';' ∧ y ≠ 34 := by
    intro y hy
    simpa [and_assoc] using hy
  obtain ⟨hshape, hhi, hlo, hplain⟩ := escapeByte_shape c
  rcases hshape with h | h | ⟨h, hs⟩
  · rw [h, List.mem_singleton] at hx
    subst hx
    decide
  · rw [h] at hx
    simp only [List.mem_cons, List.mem_singleton, List.not_mem_nil, or_false] at hx
    rcases hx with rfl | rfl | rfl
    · decide
    · exact hfix _ hhi
    · exact hfix _ hlo
  · rw [h, List.mem_singleton] at hx
    subst hx
    rw [hs, Bool.false_or] at hplain
    exact hfix _ hplain

set_option maxRecDepth 100000 in
theorem escapeByte_cases : ∀ c : Byte,
    (c = ch ' ' ∧ escapeByte c = [ch '+']) ∨
    (escapeByte c = [ch '%', upperhex (c.val >>> 4), upperhex (c.val &&& 15)] ∧
      ishex (upperhex (c.val >>> 4)) = true ∧ ishex (upperhex (c.val &&& 15)) = true ∧
      (Fin.ofNat ((unhex (upperhex (c.val >>> 4)) <<< 4) % 256 |||
        unhex (upperhex (c.val &&& 15))) : Byte) = c) ∨
    (escapeByte c = [c] ∧ c ≠ ch '%' ∧ c ≠ ch '+') := by
  decide!

set_option maxRecDepth 100000 in
theorem isToken_plain : ∀ b : Byte, isToken b = true →
    b ≠ ch ';' ∧ b ≠ ch '=' ∧ isASCIISpace b = false := by
  decide!

theorem QueryEscape_cons (c : Byte) (v : GoString) :
    QueryEscape (c :: v) = escapeByte c ++ QueryEscape v := by
  simp [QueryEscape]

theorem QueryEscape_safe (v : GoString) : ∀ x ∈ QueryEscape v,
    validCookieValueByte x = true ∧ x ≠ ch ' ' ∧ x ≠ ch ',' ∧ isASCIISpace x = false ∧
      x ≠ ch ';' ∧ x ≠ 34 := by
  intro x hx
  simp only [QueryEscape, List.mem_flatMap] at hx
  obtain ⟨c, _, hc⟩ := hx
  exact escapeByte_safe c x hc

theorem unescape_escape (v : GoString) :
    unescapeValid (QueryEscape v) = true ∧ unescapeDecode (QueryEscape v) = v := by
  induction v with
  | nil => exact ⟨rfl, rfl⟩
  | cons c v ih =>
    rw [QueryEscape_cons]
    have hplus : ch '+' ≠ ch '%' := by decide
    rcases escapeByte_cases c with ⟨hc, he⟩ | ⟨he, h1, h2, h3⟩ | ⟨he, h1, h2⟩
    · rw [he]
      refine ⟨?_, ?_⟩
      · show unescapeValid (ch '+' :: QueryEscape v) = true
        unfold unescapeValid
        simp [hplus, ih.1]
      · show unescapeDecode (ch '+' :: QueryEscape v) = c :: v
        unfold unescapeDecode
        simp [hplus, ih.2, hc]
    · rw [he]
      simp [unescapeValid, unescapeDecode, h1, h2, h3, ih.1, ih.2]
    · rw [he]
      refine ⟨?_, ?_⟩
      · show unescapeValid (c :: QueryEscape v) = true
        unfold unescapeValid
        simp [h1, ih.1]
      · show unescapeDecode (c :: QueryEscape v) = c :: v
        unfold unescapeDecode
        simp [h1, h2, ih.2]

theorem QueryUnescape_QueryEscape (v : GoString) : QueryUnescape (QueryEscape v) = (v, false) := by
  simp [QueryUnescape, unescape_escape v]

theorem takeWhile_append_stop {α : Type} (p : α → Bool) (xs : List α) (y : α) (ys : List α)
    (hxs : ∀ x ∈ xs, p x = true) (hy : p y = false) :
    (xs ++ y :: ys).takeWhile p = xs ∧ (xs ++ y :: ys).dropWhile p = y :: ys := by
  induction xs with
  | nil => simp [List.takeWhile, List.dropWhile, hy]
  | cons a as ih =>
    have ha := hxs a (List.mem_cons_self _ _)
    have := ih (fun x hx => hxs x (List.mem_cons_of_mem _ hx))
    simp [List.takeWhile, List.dropWhile, ha, this]

theorem trimString_id (s : GoString) (h : ∀ x ∈ s, isASCIISpace x = false) : trimString s = s := by
  have h1 : ∀ l : GoString, (∀ x ∈ l, isASCIISpace x = false) → l.dropWhile isASCIISpace = l := by
    intro l hl
    cases l with
    | nil => rfl
    | cons a as => simp [List.dropWhile, hl a (List.mem_cons_self _ _)]
  unfold trimString
  rw [h1 s h, h1 s.reverse (fun x hx => h x (List.mem_reverse.mp hx)), List.reverse_reverse]

theorem splitByte_single (sep : Byte) (s : GoString) (h : sep ∉ s) : splitByte sep s = [s] := by
  induction s with
  | nil => rfl
  | cons a as ih =>
    have ha : a ≠ sep := fun e => h (e ▸ List.mem_cons_self _ _)
    have := ih (fun hm => h (List.mem_cons_of_mem _ hm))
    simp [splitByte, ha, this]

theorem Header_Values_Add_same (h : Header) (key value : GoString) :
    Header.Values (Header.Add h key value) key = Header.Values h key ++ [value] := by
  simp [Header.Values, Header.Add]

theorem sanitizeCookieValue_QueryEscape (v : GoString) :
    sanitizeCookieValue (QueryEscape v) = QueryEscape v := by
  have hs := QueryEscape_safe v
  have hf : (QueryEscape v).filter validCookieValueByte = QueryEscape v :=
    List.filter_eq_self.mpr (fun x hx => (hs x hx).1)
  have h1 : ch ' ' ∉ QueryEscape v := fun hm => (hs _ hm).2.1 rfl
  have h2 : ch ',' ∉ QueryEscape v := fun hm => (hs _ hm).2.2.1 rfl
  simp [sanitizeCookieValue, sanitizeOrWarn, hf, h1, h2]

theorem isCookieNameValid_iff (name : GoString) :
    isCookieNameValid name = true ↔ name ≠ [] ∧ ∀ b ∈ name, isToken b = true := by
  simp [isCookieNameValid]

theorem SetCookie_line (vd : GoString → Bool) (name value : GoString)
    (hname : isCookieNameValid name = true) :
    (buildCookie name value []).String vd =
      (name ++ ch '=' :: QueryEscape value) ++ ch ';' :: lit " Path=/" := by
  have hb : buildCookie name value [] =
      { Name := name, Value := QueryEscape value, Path := lit "/" } := rfl
  have hp : sanitizeOrWarn validCookiePathByte (lit "/") = lit "/" := by decide
  have hl : (lit "/").length > 0 := by decide
  have e : lit "; Path=" ++ lit "/" = ch ';' :: lit " Path=/" := by decide
  rw [hb]
  simp only [Cookie.String, hname, not_true_eq_false, if_false, sanitizeCookieValue_QueryEscape,
    hl, if_true, hp, List.length_nil, gt_iff_lt, lt_self_iff_false, false_and, lt_irrefl,
    Bool.false_eq_true, List.append_assoc, e]
  simp

theorem readCookiePart_pair (name value : GoString) (hname : isCookieNameValid name = true) :
    readCookiePart name (name ++ ch '=' :: QueryEscape value) =
      some { Name := name, Value := QueryEscape value } := by
  obtain ⟨hne, htok⟩ := (isCookieNameValid_iff name).mp hname
  have hs := QueryEscape_safe value
  have hsp : ∀ x ∈ name ++ ch '=' :: QueryEscape value, isASCIISpace x = false := by
    intro x hx
    rcases List.mem_append.mp hx with h | h
    · exact (isToken_plain x (htok x h)).2.2
    · rcases List.mem_cons.mp h with h | h
      · subst h; decide
      · exact (hs x h).2.2.2.1
  have hspn : ∀ x ∈ name, isASCIISpace x = false := fun x hx => (isToken_plain x (htok x hx)).2.2
  have hcut := takeWhile_append_stop (fun b : Byte => decide (b ≠ ch '=')) name (ch '=')
    (QueryEscape value) (fun x hx => by simpa using (isToken_plain x (htok x hx)).2.1) (by simp)
  have hnonempty : name ++ ch '=' :: QueryEscape value ≠ [] := by simp
  have hval : parseCookieValue (QueryEscape value) = some (QueryEscape value) := by
    have hq : ¬ ((QueryEscape value).length > 1 ∧ (QueryEscape value).head? = some 34 ∧
        (QueryEscape value).getLast? = some 34) := by
      rintro ⟨_, hh, _⟩
      cases hv : QueryEscape value with
      | nil => rw [hv] at hh; simp at hh
      | cons a as =>
        rw [hv] at hh
        simp only [List.head?_cons, Option.some.injEq] at hh
        exact (hs a (by rw [hv]; exact List.mem_cons_self _ _)).2.2.2.2.2 hh
    have hall : (QueryEscape value).all validCookieValueByte = true :=
      List.all_eq_true.mpr (fun x hx => (hs x hx).1)
    simp only [parseCookieValue, hq, if_false, hall, if_true]
  simp only [readCookiePart, trimString_id _ hsp, hnonempty, if_false, cut, hcut.1, hcut.2,
    trimString_id _ hspn, hname, not_true_eq_false, List.drop_succ_cons, List.drop_zero, hval,
    ne_eq, not_true_eq_false, and_false]

/-- C7. For every valid cookie name and every value, SetCookie(name, value)
appends one Set-Cookie line; its cookie-pair is the name, `=` and the escaped
value unaltered; unescaping the escaped value gives the value back; and on a
request that presents this pair in its Cookie header GetCookie(name) returns
the value exactly. -/
theorem SetCookie_GetCookie_round_trip (lib : Lib) (c : Context) (name value : GoString)
    (hname : isCookieNameValid name = true) :
    ∃ line,
      Header.Values (c.SetCookie lib name value []).Resp.header (lit "Set-Cookie") =
        Header.Values c.Resp.header (lit "Set-Cookie") ++ [line] ∧
      cookiePair line = name ++ ch '=' :: QueryEscape value ∧
      QueryUnescape (QueryEscape value) = (value, false) ∧
      ∀ c2 : Context, Header.Values c2.Req.Header (lit "Cookie") = [cookiePair line] →
        c2.GetCookie name = value := by
  obtain ⟨hne, htok⟩ := (isCookieNameValid_iff name).mp hname
  have hs := QueryEscape_safe value
  have hnosemi : ∀ x ∈ name ++ ch '=' :: QueryEscape value, x ≠ ch ';' := by
    intro x hx
    rcases List.mem_append.mp hx with h | h
    · exact (isToken_plain x (htok x h)).1
    · rcases List.mem_cons.mp h with h | h
      · subst h; decide
      · exact (hs x h).2.2.2.2.1
  have hsp : ∀ x ∈ name ++ ch '=' :: QueryEscape value, isASCIISpace x = false := by
    intro x hx
    rcases List.mem_append.mp hx with h | h
    · exact (isToken_plain x (htok x h)).2.2
    · rcases List.mem_cons.mp h with h | h
      · subst h; decide
      · exact (hs x h).2.2.2.1
  have hpair : cookiePair ((buildCookie name value []).String lib.validCookieDomain) =
      name ++ ch '=' :: QueryEscape value := by
    rw [SetCookie_line _ name value hname]
    exact (takeWhile_append_stop (fun b : Byte => decide (b ≠ ch ';')) _ (ch ';') _
      (fun x hx => by simpa using hnosemi x hx) (by simp)).1
  refine ⟨(buildCookie name value []).String lib.validCookieDomain, ?_, hpair,
    QueryUnescape_QueryEscape value, ?_⟩
  · simp [Context.SetCookie, Response.HeaderAdd, Header_Values_Add_same]
  · intro c2 hreq
    have hsplit : splitByte (ch ';') (name ++ ch '=' :: QueryEscape value) =
        [name ++ ch '=' :: QueryEscape value] :=
      splitByte_single _ _ (fun hm => hnosemi _ hm rfl)
    simp only [Context.GetCookie, Request.Cookie, hne, if_false, hreq, hpair, readCookies,
      List.flatMap_cons, List.flatMap_nil, List.append_nil, trimString_id _ hsp, hsplit,
      List.filterMap_cons, List.filterMap_nil, readCookiePart_pair name value hname,
      List.head?_cons, QueryUnescape_QueryEscape]

theorem SetCookie_GetCookie_round_trip_witness :
    ∃ line,
      Header.Values (({} : Context).SetCookie exampleLib (lit "a") (lit "b c") []).Resp.header
        (lit "Set-Cookie") = [line] ∧
      cookiePair line = lit "a=b+c" ∧
      ({ Req := { Header := [(lit "Cookie", [cookiePair line])] } } : Context).GetCookie (lit "a")
        = lit "b c" :=
  let ⟨line, h1, h2, _, h4⟩ := SetCookie_GetCookie_round_trip exampleLib {} (lit "a") (lit "b c")
    (by decide)
  ⟨line, h1, h2, h4 _ rfl⟩

end Baa
